import Mathlib

/-!
Shallow embedding of the character-level CRDT text engine of
`packages/web/src/utils/crdtEngine.ts` and the Lamport clock of
`packages/web/src/utils/lamportTimestamp.ts`.

Modelling conventions:
* TypeScript arrays become `List`; `Array.prototype.findIndex` (which returns
  `-1` on failure) becomes the `Option Nat`-valued `findIndexOpt`;
* text is a `List Char` (the engine only ever stores one character per
  `Character` record: every insert produced by `diffTextChanges` carries a
  single character of `newText`);
* the module-level Lamport-clock singleton is threaded explicitly: a function
  that calls `getNextTimestamp` takes the current counter value and threads the
  incremented counter through the recursion;
* numbers are `Nat` (timestamps, indices) and `Int` (sequence numbers, which
  the source initialises from `-1` sentinels);
* the `while` loop of `diffTextChanges` becomes fuel-based structural
  recursion; the fuel passed by `diffTextChanges` strictly exceeds the number
  of iterations the source loop can perform, so the out-of-fuel branch is
  never taken on the arguments the wrapper supplies.
-/

/-- `Character` of `types/crdt.ts`: one immutable character record. -/
structure Character where
  id : String
  char : Char
  author : String
  timestamp : Nat
deriving DecidableEq, Repr

/-- `CRDTDocument` of `types/crdt.ts`: the ordered list of live characters. -/
structure CRDTDocument where
  characters : List Character
deriving DecidableEq, Repr

/-- `CRDTOperation` of `types/crdt.ts`: the tagged operation variant. -/
inductive CRDTOperation where
  | insert (afterId : Option String) (char : Char) (charId : String)
      (author : String) (timestamp : Nat)
  | delete (charId : String) (timestamp : Nat)
deriving DecidableEq, Repr

/-- `TextSegment` of `types/crdt.ts`: a derived run of same-author characters. -/
structure TextSegment where
  text : List Char
  author : String
  startIndex : Nat
  endIndex : Nat
deriving DecidableEq, Repr

/-- The state of `LamportTimestampManager` (`lamportTimestamp.ts`): one counter. -/
structure LamportTimestampManager where
  counter : Nat
deriving DecidableEq, Repr

/-- `getNextTimestamp`: increments the counter and returns it (value, new state). -/
def getNextTimestamp (m : LamportTimestampManager) : Nat × LamportTimestampManager :=
  let c := m.counter + 1
  (c, { counter := c })

/-- `updateTimestamp`: sets the counter to `max(counter, received) + 1`, returns it. -/
def updateTimestamp (m : LamportTimestampManager) (receivedTimestamp : Nat) :
    Nat × LamportTimestampManager :=
  let c := max m.counter receivedTimestamp + 1
  (c, { counter := c })

/-- `getCurrentTimestamp`: read-only peek at the counter. -/
def getCurrentTimestamp (m : LamportTimestampManager) : Nat :=
  m.counter

/-- `Array.prototype.findIndex`, with JS's `-1` failure value modelled as `none`. -/
def findIndexOpt (p : Character → Bool) : List Character → Option Nat
  | [] => none
  | c :: rest => if p c then some 0 else (findIndexOpt p rest).map (· + 1)

/-- `insertCharacter` of `crdtEngine.ts`: prepend when `afterId` is null,
splice after the first index holding `afterId` when found, append when not. -/
def insertCharacter (document : CRDTDocument) (afterId : Option String) (char : Char)
    (charId : String) (author : String) (timestamp : Nat) : CRDTDocument :=
  let newCharacter : Character :=
    { id := charId, char := char, author := author, timestamp := timestamp }
  match afterId with
  | none => { characters := newCharacter :: document.characters }
  | some aid =>
    match findIndexOpt (fun c => c.id == aid) document.characters with
    | none => { characters := document.characters ++ [newCharacter] }
    | some afterIndex =>
      { characters := document.characters.take (afterIndex + 1)
          ++ newCharacter :: document.characters.drop (afterIndex + 1) }

/-- `deleteCharacter` of `crdtEngine.ts`: filter out every character with the id. -/
def deleteCharacter (document : CRDTDocument) (charId : String) : CRDTDocument :=
  { characters := document.characters.filter (fun c => c.id != charId) }

/-- `applyOperation` of `crdtEngine.ts` (document part; its `updateTimestamp`
call mutates only the clock singleton and never the returned document). -/
def applyOperation (document : CRDTDocument) (operation : CRDTOperation) : CRDTDocument :=
  match operation with
  | CRDTOperation.insert afterId char charId author timestamp =>
      insertCharacter document afterId char charId author timestamp
  | CRDTOperation.delete charId _ => deleteCharacter document charId

/-- Replaying a list of operations in order (`operations.forEach(op => doc = applyOperation(doc, op))`
in `usePairChatCRDT.ts`). -/
def applyAll (document : CRDTDocument) (operations : List CRDTOperation) : CRDTDocument :=
  operations.foldl applyOperation document

/-- The comparator of `sortCharacters`: ascending timestamp, ties broken by
`id.localeCompare` (codepoint order for the ASCII ids this engine mints);
`charLeB a b` says `a` may stay before `b`. -/
def charLeB (a b : Character) : Bool :=
  if a.timestamp ≠ b.timestamp then decide (a.timestamp < b.timestamp)
  else compare a.id b.id ≠ Ordering.gt

/-- Stable insertion used to model the stable `Array.prototype.sort`. -/
def orderedInsertCmp (a : Character) : List Character → List Character
  | [] => [a]
  | b :: l => if charLeB a b then a :: b :: l else b :: orderedInsertCmp a l

/-- `sortCharacters` of `crdtEngine.ts`: stable sort by `(timestamp, id)`. -/
def sortCharacters (characters : List Character) : List Character :=
  characters.foldr orderedInsertCmp []

/-- The loop body of `groupByAuthor` once a current segment exists. -/
def groupByAuthorAux (chars : List Character) (idx : Nat) (cur : TextSegment) :
    List TextSegment :=
  match chars with
  | [] => [cur]
  | c :: rest =>
    if cur.author = c.author then
      groupByAuthorAux rest (idx + 1)
        { cur with text := cur.text ++ [c.char], endIndex := idx }
    else
      cur :: groupByAuthorAux rest (idx + 1)
        { text := [c.char], author := c.author, startIndex := idx, endIndex := idx }

/-- `groupByAuthor` of `crdtEngine.ts`: walk the characters in array order and
merge consecutive same-author characters into segments. -/
def groupByAuthor (characters : List Character) : List TextSegment :=
  match characters with
  | [] => []
  | c :: rest =>
    groupByAuthorAux rest 1
      { text := [c.char], author := c.author, startIndex := 0, endIndex := 0 }

/-- `documentToText` of `crdtEngine.ts`: concatenate the characters in array order. -/
def documentToText (document : CRDTDocument) : List Char :=
  document.characters.map (fun c => c.char)

/-- `createCharacterId` of `crdtEngine.ts`: the template literal `clientId:sequenceNumber`. -/
def createCharacterId (clientId : String) (sequenceNumber : Int) : String :=
  clientId ++ ":" ++ toString sequenceNumber

/-- `findCharacterIdAtPosition` of `crdtEngine.ts`. -/
def findCharacterIdAtPosition (document : CRDTDocument) (position : Nat) : Option String :=
  let chars := document.characters
  if position = 0 then none
  else if chars.length ≤ position then chars.getLast?.map (fun c => c.id)
  else (chars.get? (position - 1)).map (fun c => c.id)

/-- `createEmptyDocument` of `crdtEngine.ts`. -/
def createEmptyDocument : CRDTDocument :=
  { characters := [] }

/-- `parseInt(parts[1], 10)` as used on the sequence part of an id.  The ids this
engine mints always carry pure decimal digits there; the source's `NaN` result on
non-numeric input is modelled as the same `-1` sentinel the source uses for ids
without a `:`. -/
def parseIdSeq (s : String) : Int :=
  match s.toNat? with
  | some n => (n : Int)
  | none => -1

/-- The sequence-number initialisation block of `diffTextChanges`: one more than
the largest sequence number among the author's existing characters, or `0`. -/
def diffInitialSeq (oldDocument : CRDTDocument) (author : String) : Int :=
  let existingIds :=
    (oldDocument.characters.filter (fun c => c.author == author)).map (fun c =>
      let parts := c.id.splitOn ":"
      if 1 < parts.length then parseIdSeq (parts.getD 1 "") else -1)
  match existingIds with
  | [] => 0
  | x :: xs => xs.foldl max x + 1

/-- The `while` loop of `diffTextChanges`, fuel-based.  Branches, in source
order: matching characters advance both indices; otherwise a remaining old
character is deleted (the id taken from the timestamp-sorted `sorted` at
`oldIndex`); otherwise a remaining new character is inserted, anchored at
`findCharacterIdAtPosition oldDocument oldIndex` when `oldIndex > 0`. -/
def diffLoop (sorted : List Character) (oldDocument : CRDTDocument)
    (oldText newText : List Char) (author clientId : String) :
    Nat → Nat → Nat → Int → Nat → List CRDTOperation
  | 0, _, _, _, _ => []
  | fuel + 1, oldIndex, newIndex, sequenceNumber, clock =>
    if oldIndex < oldText.length ∨ newIndex < newText.length then
      if oldIndex < oldText.length ∧ newIndex < newText.length
          ∧ oldText.get? oldIndex = newText.get? newIndex then
        diffLoop sorted oldDocument oldText newText author clientId
          fuel (oldIndex + 1) (newIndex + 1) sequenceNumber clock
      else if oldIndex < oldText.length then
        match sorted.get? oldIndex with
        | some c =>
          CRDTOperation.delete c.id (clock + 1)
            :: diffLoop sorted oldDocument oldText newText author clientId
                fuel (oldIndex + 1) newIndex sequenceNumber (clock + 1)
        | none =>
          diffLoop sorted oldDocument oldText newText author clientId
            fuel (oldIndex + 1) newIndex sequenceNumber clock
      else
        match newText.get? newIndex with
        | some ch =>
          let afterId :=
            if 0 < oldIndex then findCharacterIdAtPosition oldDocument oldIndex else none
          CRDTOperation.insert afterId ch (createCharacterId clientId sequenceNumber)
              author (clock + 1)
            :: diffLoop sorted oldDocument oldText newText author clientId
                fuel oldIndex (newIndex + 1) (sequenceNumber + 1) (clock + 1)
        | none => []
    else []

/-- `diffTextChanges` of `crdtEngine.ts`.  `clock` is the Lamport singleton's
counter when the call starts; `sorted` is hoisted out of the loop (the source
recomputes the same pure value inside the delete branch). -/
def diffTextChanges (oldDocument : CRDTDocument) (newText : List Char)
    (author clientId : String) (clock : Nat) : List CRDTOperation :=
  let oldText := documentToText oldDocument
  let sequenceNumber := diffInitialSeq oldDocument author
  let sorted := sortCharacters oldDocument.characters
  diffLoop sorted oldDocument oldText newText author clientId
    (oldText.length + newText.length + 1) 0 0 sequenceNumber clock

/-! Derived definitions used to state and prove the claims. -/

/-- Recursive characterisation of the `findIndex`-plus-`splice` body of
`insertCharacter` for a non-null anchor: insert after the first character whose
id is `aid`, appending at the end when no such character exists. -/
def insertAfterAux (aid : String) (nc : Character) : List Character → List Character
  | [] => [nc]
  | c :: rest => if c.id = aid then c :: nc :: rest else c :: insertAfterAux aid nc rest

/-- An anchor is resolved in a document when it is null or names a live character. -/
def anchorOk (doc : CRDTDocument) : Option String → Prop
  | none => True
  | some aid => aid ∈ doc.characters.map (fun c => c.id)

/-- Conditions under which two operations reference only already-resolved,
mutually independent anchors and ids (the amended convergence hypothesis). -/
def compatible (doc : CRDTDocument) : CRDTOperation → CRDTOperation → Prop
  | CRDTOperation.insert a1 _ id1 _ _, CRDTOperation.insert a2 _ id2 _ _ =>
      a1 ≠ a2 ∧ id1 ≠ id2 ∧ a1 ≠ some id2 ∧ a2 ≠ some id1 ∧ anchorOk doc a1 ∧ anchorOk doc a2
  | CRDTOperation.insert a1 _ id1 _ _, CRDTOperation.delete did _ =>
      did ≠ id1 ∧ a1 ≠ some did
  | CRDTOperation.delete did _, CRDTOperation.insert a2 _ id2 _ _ =>
      did ≠ id2 ∧ a2 ≠ some did
  | CRDTOperation.delete _ _, CRDTOperation.delete _ _ => True

/-- Text a segment claims to cover: the characters of the index range
`[startIndex, endIndex]`, in array order. -/
def segText (chars : List Character) (s : TextSegment) : List Char :=
  ((chars.drop s.startIndex).take (s.endIndex + 1 - s.startIndex)).map (fun c => c.char)

/-- Proposition that a segment list covers exactly the index interval
`[start, stop)` contiguously and in order. -/
def coversFrom : Nat → Nat → List TextSegment → Prop
  | start, stop, [] => start = stop
  | start, stop, s :: rest =>
      s.startIndex = start ∧ start ≤ s.endIndex ∧ s.endIndex < stop
        ∧ coversFrom (s.endIndex + 1) stop rest

/-- Boolean tag test for delete operations. -/
def isDeleteOp : CRDTOperation → Bool
  | CRDTOperation.delete _ _ => true
  | CRDTOperation.insert _ _ _ _ _ => false

/-- Ids referenced by the delete operations of a batch, in emission order. -/
def deleteIds (ops : List CRDTOperation) : List String :=
  ops.filterMap (fun op =>
    match op with
    | CRDTOperation.delete cid _ => some cid
    | CRDTOperation.insert _ _ _ _ _ => none)

/-- Concrete document rendering `"hello world"`, authored by `A`, ids `A:0`…`A:10`,
timestamps `1`…`11` (so its timestamp order coincides with its array order). -/
def helloDoc : CRDTDocument :=
  { characters :=
      [ { id := "A:0", char := 'h', author := "A", timestamp := 1 },
        { id := "A:1", char := 'e', author := "A", timestamp := 2 },
        { id := "A:2", char := 'l', author := "A", timestamp := 3 },
        { id := "A:3", char := 'l', author := "A", timestamp := 4 },
        { id := "A:4", char := 'o', author := "A", timestamp := 5 },
        { id := "A:5", char := ' ', author := "A", timestamp := 6 },
        { id := "A:6", char := 'w', author := "A", timestamp := 7 },
        { id := "A:7", char := 'o', author := "A", timestamp := 8 },
        { id := "A:8", char := 'r', author := "A", timestamp := 9 },
        { id := "A:9", char := 'l', author := "A", timestamp := 10 },
        { id := "A:10", char := 'd', author := "A", timestamp := 11 } ] }

/-- The operation batch `diffTextChanges` produces for `"hello world"` →
`"hello brave world"`. -/
def helloOps : List CRDTOperation :=
  diffTextChanges helloDoc "hello brave world".toList "B" "B" 100

/-- Concrete one-character document rendering `"a"`. -/
def docA : CRDTDocument :=
  { characters := [ { id := "A:0", char := 'a', author := "A", timestamp := 1 } ] }

/-- The operation batch `diffTextChanges` produces for `"a"` → `"abc"`. -/
def opsA : List CRDTOperation :=
  diffTextChanges docA "abc".toList "B" "B" 0

/-- Concrete two-character document rendering `"ab"`, timestamps in array order. -/
def docAB : CRDTDocument :=
  { characters :=
      [ { id := "A:0", char := 'a', author := "A", timestamp := 1 },
        { id := "A:1", char := 'b', author := "A", timestamp := 2 } ] }

/-- The operation batch `diffTextChanges` produces for `"ab"` → `""`. -/
def opsAB : List CRDTOperation :=
  diffTextChanges docAB [] "B" "B" 0

/-! Helper lemmas shared by the claim theorems. -/

lemma CRDTDocument.eq_of_characters {d1 d2 : CRDTDocument}
    (h : d1.characters = d2.characters) : d1 = d2 := by
  cases d1; cases d2; simpa using h

lemma findIndexOpt_eq_none_iff (p : Character → Bool) (cs : List Character) :
    findIndexOpt p cs = none ↔ ∀ c ∈ cs, p c = false := by
  induction cs with
  | nil => simp [findIndexOpt]
  | cons c rest ih =>
    by_cases h : p c
    · simp [findIndexOpt, h]
    · simp [findIndexOpt, h, ih]

lemma findIndexOpt_lt_length (p : Character → Bool) (cs : List Character) (k : Nat)
    (h : findIndexOpt p cs = some k) : k < cs.length := by
  induction cs generalizing k with
  | nil => simp [findIndexOpt] at h
  | cons c rest ih =>
    simp only [findIndexOpt] at h
    by_cases hp : p c
    · rw [if_pos hp] at h
      cases h
      simp
    · rw [if_neg hp] at h
      cases hfi : findIndexOpt p rest with
      | none => rw [hfi] at h; simp at h
      | some a =>
        rw [hfi] at h
        simp at h
        subst h
        have := ih a hfi
        simp
        omega

lemma findIndexOpt_id_eq_some (cs : List Character) (aid : String) (n : Nat) (c : Character)
    (hnd : (cs.map (fun x => x.id)).Nodup) (hget : cs.get? n = some c) (hid : c.id = aid) :
    findIndexOpt (fun x => x.id == aid) cs = some n := by
  induction cs generalizing n with
  | nil => simp at hget
  | cons d rest ih =>
    have hnd2 : (d.id :: rest.map (fun x => x.id)).Nodup := by simpa using hnd
    have hnd' : (rest.map (fun x => x.id)).Nodup := (List.nodup_cons.mp hnd2).2
    cases n with
    | zero =>
      have hdc : d = c := by simpa using hget
      subst hdc
      simp only [findIndexOpt]
      rw [if_pos (by simpa using hid)]
    | succ n =>
      have hget' : rest.get? n = some c := hget
      have hmem : c ∈ rest := List.get?_mem hget'
      have hne : d.id ≠ aid := by
        intro he
        have hin : d.id ∈ rest.map (fun x => x.id) :=
          List.mem_map.mpr ⟨c, hmem, by rw [hid, he]⟩
        exact (List.nodup_cons.mp hnd2).1 hin
      simp only [findIndexOpt]
      rw [if_neg (by simpa using hne)]
      rw [ih n hnd' hget']
      rfl

/-! Claim theorems: C2, C3, C4, C5, C10. -/

/-- C2 (the round-trip law fails on the code): for the empty document and new
text `"ab"`, `diffTextChanges` emits two inserts both anchored at null, and
replaying the batch in order renders `"ba"` rather than `"ab"`. -/
theorem C2_roundtrip_failure :
    diffTextChanges createEmptyDocument ['a', 'b'] "u1" "u1" 0
      = [CRDTOperation.insert none 'a' "u1:0" "u1" 1,
         CRDTOperation.insert none 'b' "u1:1" "u1" 2]
  ∧ documentToText
      (applyAll createEmptyDocument (diffTextChanges createEmptyDocument ['a', 'b'] "u1" "u1" 0))
      = ['b', 'a']
  ∧ (['b', 'a'] : List Char) ≠ ['a', 'b'] :=
  ⟨by decide, by decide, by decide⟩

/-- C3: `insertCharacter` with a null anchor places the new character at
position 0; with an anchor that lives at position `p` (ids unique) it places it
at position `p + 1`; with an absent anchor it appends at the end; and in every
case exactly one character is added while the existing ones are kept unchanged
and in order (visible in the exact list shapes). -/
theorem C3_insert_placement (doc : CRDTDocument) (ch : Char) (cid author : String) (ts : Nat) :
    (insertCharacter doc none ch cid author ts).characters
        = { id := cid, char := ch, author := author, timestamp := ts } :: doc.characters
  ∧ (∀ aid p c, (doc.characters.map (fun x => x.id)).Nodup →
      doc.characters.get? p = some c → c.id = aid →
      (insertCharacter doc (some aid) ch cid author ts).characters
        = doc.characters.take (p + 1)
            ++ { id := cid, char := ch, author := author, timestamp := ts }
              :: doc.characters.drop (p + 1))
  ∧ (∀ aid, (∀ c ∈ doc.characters, c.id ≠ aid) →
      (insertCharacter doc (some aid) ch cid author ts).characters
        = doc.characters ++ [{ id := cid, char := ch, author := author, timestamp := ts }])
  ∧ (∀ aID : Option String,
      (insertCharacter doc aID ch cid author ts).characters.length
        = doc.characters.length + 1) := by
  refine ⟨rfl, ?_, ?_, ?_⟩
  · intro aid p c hnd hget hid
    simp [insertCharacter, findIndexOpt_id_eq_some doc.characters aid p c hnd hget hid]
  · intro aid h
    have hfi : findIndexOpt (fun c => c.id == aid) doc.characters = none :=
      (findIndexOpt_eq_none_iff _ _).mpr (fun c hc => by simpa using h c hc)
    simp [insertCharacter, hfi]
  · intro aID
    cases aID with
    | none => simp [insertCharacter]
    | some aid =>
      cases hfi : findIndexOpt (fun c => c.id == aid) doc.characters with
      | none => simp [insertCharacter, hfi]
      | some k =>
        have hk := findIndexOpt_lt_length _ _ _ hfi
        simp [insertCharacter, hfi]
        omega

/-- Witness for C3: splicing `z` after the first character of the concrete
two-character document `docAB`. -/
theorem C3_witness :
    (insertCharacter docAB (some "A:0") 'z' "C:0" "C" 5).characters
      = [ { id := "A:0", char := 'a', author := "A", timestamp := 1 },
          { id := "C:0", char := 'z', author := "C", timestamp := 5 },
          { id := "A:1", char := 'b', author := "A", timestamp := 2 } ] := by
  have h := (C3_insert_placement docAB 'z' "C:0" "C" 5).2.1 "A:0" 0
      { id := "A:0", char := 'a', author := "A", timestamp := 1 } (by decide) (by decide) rfl
  rw [h]
  rfl

/-- C4: deleting an id twice equals deleting it once; deleting an id borne by
no character is a no-op; and `deleteCharacter` keeps exactly the characters
whose id differs, in their original order. -/
theorem C4_delete_idempotent (doc : CRDTDocument) (cid : String) :
    deleteCharacter (deleteCharacter doc cid) cid = deleteCharacter doc cid
  ∧ ((∀ c ∈ doc.characters, c.id ≠ cid) → deleteCharacter doc cid = doc)
  ∧ (∀ c, c ∈ (deleteCharacter doc cid).characters ↔ (c ∈ doc.characters ∧ c.id ≠ cid)) := by
  refine ⟨?_, ?_, ?_⟩
  · apply CRDTDocument.eq_of_characters
    simp [deleteCharacter, List.filter_filter]
  · intro h
    apply CRDTDocument.eq_of_characters
    simp only [deleteCharacter]
    rw [List.filter_eq_self.mpr]
    intro c hc
    simpa using h c hc
  · intro c
    simp [deleteCharacter, List.mem_filter, bne_iff_ne]

/-- Witness for C4: deleting an id absent from `docAB` returns it unchanged. -/
theorem C4_witness : deleteCharacter docAB "zz" = docAB :=
  (C4_delete_idempotent docAB "zz").2.1 (by decide)

/-- C5: `updateTimestamp` (observe) sets the counter to `max(counter, t) + 1`
and returns the new counter; `getNextTimestamp` (next) advances the counter by
exactly one and returns it; with the counter at 5, observing 3 yields 6 and
observing 9 yields 10. -/
theorem C5_lamport_clock (m : LamportTimestampManager) (t : Nat) :
    (updateTimestamp m t).1 = max m.counter t + 1
  ∧ (updateTimestamp m t).2.counter = max m.counter t + 1
  ∧ (getNextTimestamp m).2.counter = m.counter + 1
  ∧ (getNextTimestamp m).1 = (getNextTimestamp m).2.counter
  ∧ (updateTimestamp { counter := 5 } 3).1 = 6
  ∧ (updateTimestamp { counter := 5 } 9).1 = 10 :=
  ⟨rfl, rfl, rfl, rfl, by decide, by decide⟩

/-- C10: `insertCharacter` never checks id uniqueness — the number of
characters bearing the inserted id always grows by one (so inserting an id that
is already present yields a document holding it twice), and a single
`deleteCharacter` then removes every character bearing that id. -/
theorem C10_no_id_check (doc : CRDTDocument) (afterId : Option String) (ch : Char)
    (cid author : String) (ts : Nat) :
    ((insertCharacter doc afterId ch cid author ts).characters.countP (fun c => c.id == cid)
        = doc.characters.countP (fun c => c.id == cid) + 1)
  ∧ (1 ≤ doc.characters.countP (fun c => c.id == cid) →
      2 ≤ (insertCharacter doc afterId ch cid author ts).characters.countP (fun c => c.id == cid))
  ∧ ((deleteCharacter (insertCharacter doc afterId ch cid author ts) cid).characters.countP
        (fun c => c.id == cid) = 0) := by
  have hone : (insertCharacter doc afterId ch cid author ts).characters.countP
      (fun c => c.id == cid) = doc.characters.countP (fun c => c.id == cid) + 1 := by
    cases afterId with
    | none => simp [insertCharacter, List.countP_cons]
    | some aid =>
      cases hfi : findIndexOpt (fun c => c.id == aid) doc.characters with
      | none => simp [insertCharacter, hfi, List.countP_append]
      | some k =>
        have hsplit : doc.characters.countP (fun c => c.id == cid)
            = (doc.characters.take (k + 1)).countP (fun c => c.id == cid)
              + (doc.characters.drop (k + 1)).countP (fun c => c.id == cid) := by
          rw [← List.countP_append, List.take_append_drop]
        simp [insertCharacter, hfi, List.countP_append, List.countP_cons, hsplit]
        omega
  refine ⟨hone, ?_, ?_⟩
  · intro h1
    omega
  · rw [List.countP_eq_zero]
    intro a ha
    have := List.of_mem_filter ha
    simpa using this

/-- Witness for C10: inserting the already-present id `A:0` into `docA` yields
two characters bearing it. -/
theorem C10_witness :
    2 ≤ (insertCharacter docA none 'q' "A:0" "B" 7).characters.countP (fun c => c.id == "A:0") :=
  (C10_no_id_check docA none 'q' "A:0" "B" 7).2.1 (by decide)

/-! Lemmas about the diff loop, for C7 and C8. -/

lemma findCharacterIdAtPosition_length (doc : CRDTDocument) :
    (if 0 < doc.characters.length then findCharacterIdAtPosition doc doc.characters.length
      else none)
      = doc.characters.getLast?.map (fun c => c.id) := by
  by_cases h : 0 < doc.characters.length
  · rw [if_pos h]
    have hne : doc.characters.length ≠ 0 := by omega
    simp [findCharacterIdAtPosition, hne]
  · rw [if_neg h]
    have : doc.characters = [] := List.length_eq_zero.mp (by omega)
    simp [this]

lemma diffLoop_insert_anchor (sorted : List Character) (doc : CRDTDocument)
    (newText : List Char) (author clientId : String) (fuel : Nat) :
    ∀ oldIndex newIndex seq clock, oldIndex ≤ (documentToText doc).length →
      ∀ op ∈ diffLoop sorted doc (documentToText doc) newText author clientId
          fuel oldIndex newIndex seq clock,
        ∀ a ch cid au ts, op = CRDTOperation.insert a ch cid au ts →
          a = doc.characters.getLast?.map (fun c => c.id) := by
  induction fuel with
  | zero =>
    intro oldIndex newIndex seq clock hle op hop
    simp [diffLoop] at hop
  | succ fuel ih =>
    intro oldIndex newIndex seq clock hle op hop a ch cid au ts heq
    simp only [diffLoop] at hop
    by_cases hcond : oldIndex < (documentToText doc).length ∨ newIndex < newText.length
    · rw [if_pos hcond] at hop
      by_cases hm : oldIndex < (documentToText doc).length ∧ newIndex < newText.length
          ∧ (documentToText doc).get? oldIndex = newText.get? newIndex
      · rw [if_pos hm] at hop
        exact ih (oldIndex + 1) (newIndex + 1) seq clock (by omega) op hop a ch cid au ts heq
      · rw [if_neg hm] at hop
        by_cases hdel : oldIndex < (documentToText doc).length
        · rw [if_pos hdel] at hop
          cases hget : sorted.get? oldIndex with
          | some c =>
            rw [hget] at hop
            rcases List.mem_cons.mp hop with h1 | h2
            · rw [heq] at h1
              exact absurd h1 (by simp)
            · exact ih (oldIndex + 1) newIndex seq (clock + 1) (by omega) op h2 a ch cid au ts heq
          | none =>
            rw [hget] at hop
            exact ih (oldIndex + 1) newIndex seq clock (by omega) op hop a ch cid au ts heq
        · rw [if_neg hdel] at hop
          have hidx : oldIndex = (documentToText doc).length := by omega
          cases hget : newText.get? newIndex with
          | some ch2 =>
            rw [hget] at hop
            rcases List.mem_cons.mp hop with h1 | h2
            · rw [heq] at h1
              have hlen : (documentToText doc).length = doc.characters.length := by
                simp [documentToText]
              injection h1 with ha hrest
              rw [ha, hidx, hlen]
              exact findCharacterIdAtPosition_length doc
            · exact ih oldIndex (newIndex + 1) (seq + 1) (clock + 1) hle op h2 a ch cid au ts heq
          | none =>
            rw [hget] at hop
            simp at hop
    · rw [if_neg hcond] at hop
      simp at hop

lemma drop_map_id_sublist (l : List Character) (n : Nat) :
    List.Sublist ((l.drop (n + 1)).map (fun c => c.id)) ((l.drop n).map (fun c => c.id)) := by
  apply List.Sublist.map
  have h : l.drop (n + 1) = (l.drop n).tail := by
    rw [← List.drop_one, List.drop_drop, Nat.add_comm]
  rw [h]
  exact List.tail_sublist _

lemma drop_eq_cons_of_getOpt (l : List Character) (n : Nat) (c : Character)
    (h : l.get? n = some c) : l.drop n = c :: l.drop (n + 1) := by
  obtain ⟨hlt, hget⟩ := List.get?_eq_some.mp h
  rw [List.drop_eq_getElem_cons hlt]
  have : l[n] = c := by
    rw [← hget]
    simp [List.get_eq_getElem]
  rw [this]

lemma diffLoop_deleteIds_sublist (sorted : List Character) (doc : CRDTDocument)
    (oldText newText : List Char) (author clientId : String) (fuel : Nat) :
    ∀ oldIndex newIndex seq clock,
      List.Sublist
        (deleteIds (diffLoop sorted doc oldText newText author clientId
          fuel oldIndex newIndex seq clock))
        ((sorted.drop oldIndex).map (fun c => c.id)) := by
  induction fuel with
  | zero =>
    intro oldIndex newIndex seq clock
    simp [diffLoop, deleteIds]
  | succ fuel ih =>
    intro oldIndex newIndex seq clock
    simp only [diffLoop]
    by_cases hcond : oldIndex < oldText.length ∨ newIndex < newText.length
    · rw [if_pos hcond]
      by_cases hm : oldIndex < oldText.length ∧ newIndex < newText.length
          ∧ oldText.get? oldIndex = newText.get? newIndex
      · rw [if_pos hm]
        exact (ih (oldIndex + 1) (newIndex + 1) seq clock).trans (drop_map_id_sublist _ _)
      · rw [if_neg hm]
        by_cases hdel : oldIndex < oldText.length
        · rw [if_pos hdel]
          cases hget : sorted.get? oldIndex with
          | some c =>
            rw [drop_eq_cons_of_getOpt sorted oldIndex c hget]
            simp only [deleteIds, List.filterMap_cons, List.map_cons]
            exact List.Sublist.cons₂ _ (ih (oldIndex + 1) newIndex seq (clock + 1))
          | none =>
            exact (ih (oldIndex + 1) newIndex seq clock).trans (drop_map_id_sublist _ _)
        · rw [if_neg hdel]
          cases hget : newText.get? newIndex with
          | some ch =>
            simp only [deleteIds, List.filterMap_cons]
            exact ih oldIndex (newIndex + 1) (seq + 1) (clock + 1)
          | none => simp [deleteIds]
    · rw [if_neg hcond]
      simp [deleteIds]

/-! Claim theorems: C6, C7, C8. -/

/-- Counterexample for C6: the batch for `"hello world"` → `"hello brave world"`
contains five delete operations, so it does not consist of inserts only. -/
theorem C6_counterexample :
    helloOps.countP isDeleteOp = 5 ∧ helloOps.countP isDeleteOp ≠ 0 :=
  ⟨by decide, by decide⟩

/-- C6 (amended): for `"hello world"` → `"hello brave world"` the code emits
deletes for the five characters `"world"` of the old suffix (in forward order
over the timestamp-sorted list) followed by eleven inserts for
`"brave world"`, all anchored at the last old character; replaying the batch
still renders `"hello brave world"` (the deleted anchor makes every insert
take the append-at-end fallback, which preserves emission order). -/
theorem C6_deletes_then_inserts :
    deleteIds helloOps = ["A:6", "A:7", "A:8", "A:9", "A:10"]
  ∧ helloOps.length = 16
  ∧ (helloOps.take 5).all isDeleteOp = true
  ∧ (helloOps.drop 5).all (fun op => !isDeleteOp op) = true
  ∧ (helloOps.drop 5).all (fun op =>
      match op with
      | CRDTOperation.insert a _ _ _ _ => a == some "A:10"
      | CRDTOperation.delete _ _ => false) = true
  ∧ documentToText (applyAll helloDoc helloOps) = "hello brave world".toList :=
  ⟨by decide, by decide, by decide, by decide, by decide, by decide⟩

/-- Counterexample for C7: in the batch for `"a"` → `"abc"`, the second
insert's `afterId` is `some "A:0"` (the old document's last character), not
`some "B:0"` (the first insert's freshly minted charId), so inserts in a batch
do not chain off the preceding insert. -/
theorem C7_counterexample :
    opsA = [CRDTOperation.insert (some "A:0") 'b' "B:0" "B" 1,
            CRDTOperation.insert (some "A:0") 'c' "B:1" "B" 2]
  ∧ (some "A:0" : Option String) ≠ some "B:0" :=
  ⟨by decide, by decide⟩

/-- C7 (amended): every insert in a batch produced by `diffTextChanges` carries
the same anchor — the id of the old document's last character, or null when the
old document is empty; no insert ever anchors on a previous insert of the
batch. -/
theorem C7_all_inserts_anchor_at_last (doc : CRDTDocument) (newText : List Char)
    (author clientId : String) (clock : Nat) :
    ∀ op ∈ diffTextChanges doc newText author clientId clock,
      ∀ a ch cid au ts, op = CRDTOperation.insert a ch cid au ts →
        a = doc.characters.getLast?.map (fun c => c.id) := by
  intro op hop a ch cid au ts heq
  simp only [diffTextChanges] at hop
  exact diffLoop_insert_anchor (sortCharacters doc.characters) doc newText author clientId
    ((documentToText doc).length + newText.length + 1) 0 0 (diffInitialSeq doc author) clock
    (by omega) op hop a ch cid au ts heq

/-- Witness for C7 (amended) at `docA` → `"abc"`: the second insert's anchor is
the id of `docA`'s last character. -/
theorem C7_witness :
    (some "A:0" : Option String) = docA.characters.getLast?.map (fun c => c.id) :=
  C7_all_inserts_anchor_at_last docA "abc".toList "B" "B" 0
    (CRDTOperation.insert (some "A:0") 'c' "B:1" "B" 2) (by decide)
    (some "A:0") 'c' "B:1" "B" 2 rfl

/-- Counterexample for C8: diffing `"ab"` → `""` emits `delete A:0` before
`delete A:1` — forward index order, not the claimed reverse (last-to-first)
order `A:1, A:0`. -/
theorem C8_counterexample :
    deleteIds opsAB = ["A:0", "A:1"]
  ∧ (["A:0", "A:1"] : List String) ≠ ["A:1", "A:0"] :=
  ⟨by decide, by decide⟩

/-- C8 (amended): the ids referenced by the delete operations of any
`diffTextChanges` batch form, in emission order, a sublist of the ids of the
timestamp-sorted character list (`sortCharacters`) read first-to-last — deletes
are emitted in forward order over the timestamp-sorted order, not in reverse
and not over the positional order. -/
theorem C8_deletes_forward_sorted (doc : CRDTDocument) (newText : List Char)
    (author clientId : String) (clock : Nat) :
    List.Sublist (deleteIds (diffTextChanges doc newText author clientId clock))
      ((sortCharacters doc.characters).map (fun c => c.id)) := by
  simp only [diffTextChanges]
  have h := diffLoop_deleteIds_sublist (sortCharacters doc.characters) doc
    (documentToText doc) newText author clientId
    ((documentToText doc).length + newText.length + 1) 0 0 (diffInitialSeq doc author) clock
  simpa using h

/-! Lemmas about the segmenter, for C9. -/

lemma groupByAuthorAux_spec (chars : List Character) (rest : List Character) :
    ∀ idx cur, chars.drop idx = rest → idx ≤ chars.length →
      idx = cur.endIndex + 1 → cur.startIndex ≤ cur.endIndex →
      cur.text = segText chars cur →
      (∀ i c, cur.startIndex ≤ i → i ≤ cur.endIndex → chars.get? i = some c →
        c.author = cur.author) →
      coversFrom cur.startIndex chars.length (groupByAuthorAux rest idx cur)
      ∧ (∀ s ∈ groupByAuthorAux rest idx cur, s.text = segText chars s)
      ∧ (∀ s ∈ groupByAuthorAux rest idx cur, ∀ i c, s.startIndex ≤ i → i ≤ s.endIndex →
          chars.get? i = some c → c.author = s.author)
      ∧ List.Chain' (fun s t => s.author ≠ t.author) (groupByAuthorAux rest idx cur)
      ∧ (∀ s, (groupByAuthorAux rest idx cur).head? = some s →
          s.author = cur.author ∧ s.startIndex = cur.startIndex) := by
  induction rest with
  | nil =>
    intro idx cur hdrop hlen hidx hse htext hauth
    have hge : chars.length ≤ idx := List.drop_eq_nil_iff.mp hdrop
    simp only [groupByAuthorAux]
    refine ⟨?_, ?_, ?_, ?_, ?_⟩
    · show cur.startIndex = cur.startIndex ∧ cur.startIndex ≤ cur.endIndex
        ∧ cur.endIndex < chars.length ∧ coversFrom (cur.endIndex + 1) chars.length []
      exact ⟨rfl, hse, by omega, show cur.endIndex + 1 = chars.length by omega⟩
    · intro s hs
      have hsc : s = cur := List.mem_singleton.mp hs
      subst hsc
      exact htext
    · intro s hs
      have hsc : s = cur := List.mem_singleton.mp hs
      subst hsc
      exact hauth
    · simp
    · intro s hs
      have hsc : cur = s := by simpa using hs
      subst hsc
      exact ⟨rfl, rfl⟩
  | cons c rest ih =>
    intro idx cur hdrop hlen hidx hse htext hauth
    have hgetidxE : chars[idx]? = some c := by
      have h0 : (chars.drop idx)[0]? = some c := by rw [hdrop]; simp
      rw [List.getElem?_drop] at h0
      simpa using h0
    have hgetidx : chars.get? idx = some c := by
      rw [List.get?_eq_getElem?]
      exact hgetidxE
    have hidxlt : idx < chars.length := by
      rcases List.get?_eq_some.mp hgetidx with ⟨h, _⟩
      exact h
    have hdrop' : chars.drop (idx + 1) = rest := by
      have ht : (chars.drop idx).tail = rest := by rw [hdrop]; rfl
      rw [← ht, ← List.drop_one, List.drop_drop, Nat.add_comm]
    simp only [groupByAuthorAux]
    by_cases hca : cur.author = c.author
    · rw [if_pos hca]
      have hres := ih (idx + 1)
          { cur with text := cur.text ++ [c.char], endIndex := idx }
          hdrop' (by omega) (by simp) (by simp; omega) ?_ ?_
      · obtain ⟨h1, h2, h3, h4, h5⟩ := hres
        refine ⟨by simpa using h1, h2, h3, h4, ?_⟩
        intro s hs
        have := h5 s hs
        simpa using this
      · -- the extended segment's text covers its extended range
        have hget2 : (chars.drop cur.startIndex)[idx - cur.startIndex]? = some c := by
          rw [List.getElem?_drop]
          have heq2 : cur.startIndex + (idx - cur.startIndex) = idx := by omega
          rw [heq2]
          exact hgetidxE
        simp only [segText]
        have h1 : idx + 1 - cur.startIndex = (idx - cur.startIndex) + 1 := by omega
        have h2 : cur.endIndex + 1 - cur.startIndex = idx - cur.startIndex := by omega
        rw [h1, List.take_succ, hget2]
        simp only [List.map_append, Option.toList_some, List.map_cons, List.map_nil]
        rw [htext]
        simp only [segText, h2]
      · -- every character in the extended range bears the segment's author
        intro i c2 hi1 hi2 hi3
        simp only at hi1 hi2 ⊢
        rcases Nat.lt_or_ge i idx with hlt | hge2
        · exact hauth i c2 hi1 (by omega) hi3
        · have hii : i = idx := by omega
          subst hii
          have : c2 = c := by
            rw [hgetidx] at hi3
            exact (Option.some.injEq _ _).mp hi3.symm
          subst this
          exact hca.symm
    · rw [if_neg hca]
      have hres := ih (idx + 1)
          { text := [c.char], author := c.author, startIndex := idx, endIndex := idx }
          hdrop' (by omega) rfl (le_refl idx) ?_ ?_
      · obtain ⟨h1, h2, h3, h4, h5⟩ := hres
        refine ⟨?_, ?_, ?_, ?_, ?_⟩
        · show cur.startIndex = cur.startIndex ∧ cur.startIndex ≤ cur.endIndex
            ∧ cur.endIndex < chars.length
            ∧ coversFrom (cur.endIndex + 1) chars.length (groupByAuthorAux rest (idx + 1)
                { text := [c.char], author := c.author, startIndex := idx, endIndex := idx })
          refine ⟨rfl, hse, by omega, ?_⟩
          have heq3 : cur.endIndex + 1 = idx := by omega
          rw [heq3]
          simpa using h1
        · intro s hs
          rcases List.mem_cons.mp hs with hsc | hs2
          · subst hsc
            exact htext
          · exact h2 s hs2
        · intro s hs
          rcases List.mem_cons.mp hs with hsc | hs2
          · subst hsc
            exact hauth
          · exact h3 s hs2
        · rw [List.chain'_cons']
          refine ⟨?_, h4⟩
          intro y hy
          have hy2 := (h5 y hy).1
          simp only at hy2
          rw [hy2]
          exact hca
        · intro s hs
          have hsc : cur = s := by simpa using hs
          subst hsc
          exact ⟨rfl, rfl⟩
      · -- the fresh singleton segment's text is its one character
        simp only [segText]
        have h1 : idx + 1 - idx = 1 := by omega
        rw [h1]
        rw [show chars.drop idx = c :: rest from hdrop]
        rfl
      · -- the fresh segment's one index bears its author
        intro i c2 hi1 hi2 hi3
        simp only at hi1 hi2 ⊢
        have hii : i = idx := by omega
        subst hii
        have : c2 = c := by
          rw [hgetidx] at hi3
          exact (Option.some.injEq _ _).mp hi3.symm
        subst this
        rfl

/-- C9: `groupByAuthor` walks the characters in array order and returns
segments that cover the indices `0 … length-1` contiguously and in order;
each segment's text is the concatenation of the characters of its index range;
every character in a segment's range bears the segment's author; and adjacent
segments have different authors (segments are maximal same-author runs). -/
theorem C9_groupByAuthor_segments (chars : List Character) :
    coversFrom 0 chars.length (groupByAuthor chars)
  ∧ (∀ s ∈ groupByAuthor chars, s.text = segText chars s)
  ∧ (∀ s ∈ groupByAuthor chars, ∀ i c, s.startIndex ≤ i → i ≤ s.endIndex →
      chars.get? i = some c → c.author = s.author)
  ∧ List.Chain' (fun s t => s.author ≠ t.author) (groupByAuthor chars) := by
  cases chars with
  | nil =>
    refine ⟨rfl, by simp [groupByAuthor], by simp [groupByAuthor], by simp [groupByAuthor]⟩
  | cons c rest =>
    have h := groupByAuthorAux_spec (c :: rest) rest 1
        { text := [c.char], author := c.author, startIndex := 0, endIndex := 0 }
        rfl (by simp) rfl (le_refl 0) ?_ ?_
    · obtain ⟨h1, h2, h3, h4, _⟩ := h
      exact ⟨by simpa using h1, h2, h3, h4⟩
    · simp [segText]
    · intro i c2 hi1 hi2 hi3
      simp only at hi2 ⊢
      have hii : i = 0 := by omega
      subst hii
      have hc2 : c2 = c := by simpa using hi3.symm
      subst hc2
      rfl

/-- Witness for C9 at a concrete two-author, two-character list. -/
theorem C9_witness :
    coversFrom 0 2 (groupByAuthor
      [ { id := "x", char := 'h', author := "u", timestamp := 1 },
        { id := "y", char := 'i', author := "v", timestamp := 2 } ])
  ∧ List.Chain' (fun s t => s.author ≠ t.author) (groupByAuthor
      [ { id := "x", char := 'h', author := "u", timestamp := 1 },
        { id := "y", char := 'i', author := "v", timestamp := 2 } ]) := by
  have h := C9_groupByAuthor_segments
      [ { id := "x", char := 'h', author := "u", timestamp := 1 },
        { id := "y", char := 'i', author := "v", timestamp := 2 } ]
  exact ⟨h.1, h.2.2.2⟩

/-! Lemmas about insert/delete commutation, for C1. -/

lemma insertAfterAux_eq_splice (aid : String) (nc : Character) (cs : List Character) :
    insertAfterAux aid nc cs
      = match findIndexOpt (fun c => c.id == aid) cs with
        | none => cs ++ [nc]
        | some k => cs.take (k + 1) ++ nc :: cs.drop (k + 1) := by
  induction cs with
  | nil => rfl
  | cons c rest ih =>
    by_cases h : c.id = aid
    · have hb : (c.id == aid) = true := by simpa using h
      simp [insertAfterAux, h, findIndexOpt, hb]
    · have hb : (c.id == aid) = false := by simpa using h
      simp only [insertAfterAux, if_neg h, findIndexOpt, hb, Bool.false_eq_true, if_false]
      rw [ih]
      cases hfi : findIndexOpt (fun x => x.id == aid) rest with
      | none => simp [hfi]
      | some k => simp [hfi]

lemma insertCharacter_some_characters (doc : CRDTDocument) (aid : String) (ch : Char)
    (cid au : String) (ts : Nat) :
    (insertCharacter doc (some aid) ch cid au ts).characters
      = insertAfterAux aid { id := cid, char := ch, author := au, timestamp := ts }
          doc.characters := by
  rw [insertAfterAux_eq_splice]
  cases hfi : findIndexOpt (fun c => c.id == aid) doc.characters with
  | none => simp [insertCharacter, hfi]
  | some k => simp [insertCharacter, hfi]

lemma insertAfterAux_cons_ne (aid : String) (nc d : Character) (cs : List Character)
    (h : d.id ≠ aid) :
    insertAfterAux aid nc (d :: cs) = d :: insertAfterAux aid nc cs := by
  simp [insertAfterAux, h]

lemma insertAfterAux_comm (aid1 aid2 : String) (nc1 nc2 : Character)
    (h12 : aid1 ≠ aid2) (h1 : nc1.id ≠ aid2) (h2 : nc2.id ≠ aid1) (cs : List Character)
    (hmem : aid1 ∈ cs.map (fun c => c.id) ∨ aid2 ∈ cs.map (fun c => c.id)) :
    insertAfterAux aid2 nc2 (insertAfterAux aid1 nc1 cs)
      = insertAfterAux aid1 nc1 (insertAfterAux aid2 nc2 cs) := by
  induction cs with
  | nil => simp at hmem
  | cons c cs ih =>
    by_cases hc1 : c.id = aid1
    · simp [insertAfterAux, hc1, h12, h1]
    · by_cases hc2 : c.id = aid2
      · simp [insertAfterAux, hc1, hc2, Ne.symm h12, h2]
      · have hmem' : aid1 ∈ cs.map (fun c => c.id) ∨ aid2 ∈ cs.map (fun c => c.id) := by
          rcases hmem with hm | hm
          · rw [List.map_cons] at hm
            rcases List.mem_cons.mp hm with he | ht
            · exact absurd he.symm hc1
            · exact Or.inl ht
          · rw [List.map_cons] at hm
            rcases List.mem_cons.mp hm with he | ht
            · exact absurd he.symm hc2
            · exact Or.inr ht
        simp [insertAfterAux, hc1, hc2, ih hmem']

lemma filter_insertAfterAux (aid did : String) (nc : Character)
    (h1 : nc.id ≠ did) (h2 : aid ≠ did) (cs : List Character) :
    (insertAfterAux aid nc cs).filter (fun c => c.id != did)
      = insertAfterAux aid nc (cs.filter (fun c => c.id != did)) := by
  induction cs with
  | nil => simp [insertAfterAux, h1]
  | cons c cs ih =>
    by_cases hc : c.id = aid
    · simp [insertAfterAux, hc, h2, h1]
    · by_cases hcd : c.id = did
      · simp [insertAfterAux, hc, hcd, Ne.symm h2, ih]
      · simp [insertAfterAux, hc, hcd, ih]

lemma filter_filter_comm (p q : Character → Bool) (cs : List Character) :
    (cs.filter p).filter q = (cs.filter q).filter p := by
  induction cs with
  | nil => rfl
  | cons c cs ih =>
    by_cases hp : p c <;> by_cases hq : q c <;> simp [hp, hq, ih]

/-! Claim theorems: C1. -/

/-- Counterexample for C1: two inserts with distinct (hence non-conflicting by
the claim's reading) anchors `x` and `y`, neither of which resolves in the
empty document, both take the append-at-end fallback, so the two application
orders yield documents with the two characters in opposite order. -/
theorem C1_counterexample :
    applyOperation
        (applyOperation createEmptyDocument (CRDTOperation.insert (some "x") 'a' "a1" "u1" 1))
        (CRDTOperation.insert (some "y") 'b' "b1" "u2" 2)
      ≠ applyOperation
          (applyOperation createEmptyDocument (CRDTOperation.insert (some "y") 'b' "b1" "u2" 2))
          (CRDTOperation.insert (some "x") 'a' "a1" "u1" 1) := by
  decide

/-- C1 (amended): two operations whose references are already resolved in the
document — each insert anchor is null or live, anchors are distinct, no
operation references the other's freshly inserted id, and no delete targets the
other's id or anchor — commute under `applyOperation` on every document. -/
theorem C1_commute (doc : CRDTDocument) (op1 op2 : CRDTOperation)
    (h : compatible doc op1 op2) :
    applyOperation (applyOperation doc op1) op2
      = applyOperation (applyOperation doc op2) op1 := by
  cases op1 with
  | delete did1 ts1 =>
    cases op2 with
    | delete did2 ts2 =>
      apply CRDTDocument.eq_of_characters
      show ((deleteCharacter (deleteCharacter doc did1) did2)).characters
          = ((deleteCharacter (deleteCharacter doc did2) did1)).characters
      simp only [deleteCharacter]
      exact filter_filter_comm _ _ _
    | insert a2 ch2 id2 au2 ts2 =>
      obtain ⟨hne, hna⟩ := h
      apply CRDTDocument.eq_of_characters
      cases a2 with
      | none =>
        show (insertCharacter (deleteCharacter doc did1) none ch2 id2 au2 ts2).characters
            = (deleteCharacter (insertCharacter doc none ch2 id2 au2 ts2) did1).characters
        simp only [insertCharacter, deleteCharacter, List.filter_cons]
        have : (id2 != did1) = true := by simpa using Ne.symm hne
        simp [this]
      | some aid2 =>
        have haid : aid2 ≠ did1 := fun he => hna (by rw [he])
        show (insertCharacter (deleteCharacter doc did1) (some aid2) ch2 id2 au2 ts2).characters
            = (deleteCharacter (insertCharacter doc (some aid2) ch2 id2 au2 ts2) did1).characters
        simp only [deleteCharacter]
        rw [insertCharacter_some_characters, insertCharacter_some_characters]
        exact (filter_insertAfterAux aid2 did1
          { id := id2, char := ch2, author := au2, timestamp := ts2 }
          (Ne.symm hne) haid doc.characters).symm
  | insert a1 ch1 id1 au1 ts1 =>
    cases op2 with
    | delete did2 ts2 =>
      obtain ⟨hne, hna⟩ := h
      apply CRDTDocument.eq_of_characters
      cases a1 with
      | none =>
        show (deleteCharacter (insertCharacter doc none ch1 id1 au1 ts1) did2).characters
            = (insertCharacter (deleteCharacter doc did2) none ch1 id1 au1 ts1).characters
        simp only [insertCharacter, deleteCharacter, List.filter_cons]
        have : (id1 != did2) = true := by simpa using Ne.symm hne
        simp [this]
      | some aid1 =>
        have haid : aid1 ≠ did2 := fun he => hna (by rw [he])
        show (deleteCharacter (insertCharacter doc (some aid1) ch1 id1 au1 ts1) did2).characters
            = (insertCharacter (deleteCharacter doc did2) (some aid1) ch1 id1 au1 ts1).characters
        simp only [deleteCharacter]
        rw [insertCharacter_some_characters, insertCharacter_some_characters]
        exact filter_insertAfterAux aid1 did2
          { id := id1, char := ch1, author := au1, timestamp := ts1 }
          (Ne.symm hne) haid doc.characters
    | insert a2 ch2 id2 au2 ts2 =>
      obtain ⟨hne_a, hne_id, hna1, hna2, hok1, hok2⟩ := h
      apply CRDTDocument.eq_of_characters
      cases a1 with
      | none =>
        cases a2 with
        | none => exact absurd rfl hne_a
        | some aid2 =>
          have h1 : id1 ≠ aid2 := fun he => hna2 (by rw [he])
          show (insertCharacter (insertCharacter doc none ch1 id1 au1 ts1)
                  (some aid2) ch2 id2 au2 ts2).characters
              = (insertCharacter (insertCharacter doc (some aid2) ch2 id2 au2 ts2)
                  none ch1 id1 au1 ts1).characters
          rw [insertCharacter_some_characters]
          show insertAfterAux aid2 { id := id2, char := ch2, author := au2, timestamp := ts2 }
                ({ id := id1, char := ch1, author := au1, timestamp := ts1 } :: doc.characters)
              = { id := id1, char := ch1, author := au1, timestamp := ts1 }
                  :: (insertCharacter doc (some aid2) ch2 id2 au2 ts2).characters
          rw [insertCharacter_some_characters]
          exact insertAfterAux_cons_ne aid2 _ _ doc.characters h1
      | some aid1 =>
        cases a2 with
        | none =>
          have h2 : id2 ≠ aid1 := fun he => hna1 (by rw [he])
          show (insertCharacter (insertCharacter doc (some aid1) ch1 id1 au1 ts1)
                  none ch2 id2 au2 ts2).characters
              = (insertCharacter (insertCharacter doc none ch2 id2 au2 ts2)
                  (some aid1) ch1 id1 au1 ts1).characters
          rw [insertCharacter_some_characters]
          show { id := id2, char := ch2, author := au2, timestamp := ts2 }
                  :: (insertCharacter doc (some aid1) ch1 id1 au1 ts1).characters
              = insertAfterAux aid1 { id := id1, char := ch1, author := au1, timestamp := ts1 }
                  ({ id := id2, char := ch2, author := au2, timestamp := ts2 } :: doc.characters)
          rw [insertCharacter_some_characters]
          exact (insertAfterAux_cons_ne aid1 _ _ doc.characters h2).symm
        | some aid2 =>
          have h12 : aid1 ≠ aid2 := fun he => hne_a (by rw [he])
          have h1 : id1 ≠ aid2 := fun he => hna2 (by rw [he])
          have h2 : id2 ≠ aid1 := fun he => hna1 (by rw [he])
          have hmem : aid1 ∈ doc.characters.map (fun c => c.id)
              ∨ aid2 ∈ doc.characters.map (fun c => c.id) := Or.inl hok1
          show (insertCharacter (insertCharacter doc (some aid1) ch1 id1 au1 ts1)
                  (some aid2) ch2 id2 au2 ts2).characters
              = (insertCharacter (insertCharacter doc (some aid2) ch2 id2 au2 ts2)
                  (some aid1) ch1 id1 au1 ts1).characters
          rw [insertCharacter_some_characters, insertCharacter_some_characters,
            insertCharacter_some_characters, insertCharacter_some_characters]
          exact insertAfterAux_comm aid1 aid2
            { id := id1, char := ch1, author := au1, timestamp := ts1 }
            { id := id2, char := ch2, author := au2, timestamp := ts2 }
            h12 h1 h2 doc.characters hmem

/-- Witness for C1 (amended): on `docAB`, an insert anchored at the live `A:0`
and an insert anchored at the live `A:1` commute. -/
theorem C1_witness :
    applyOperation
        (applyOperation docAB (CRDTOperation.insert (some "A:0") 'p' "P:0" "P" 3))
        (CRDTOperation.insert (some "A:1") 'q' "Q:0" "Q" 4)
      = applyOperation
          (applyOperation docAB (CRDTOperation.insert (some "A:1") 'q' "Q:0" "Q" 4))
          (CRDTOperation.insert (some "A:0") 'p' "P:0" "P" 3) :=
  C1_commute docAB (CRDTOperation.insert (some "A:0") 'p' "P:0" "P" 3)
    (CRDTOperation.insert (some "A:1") 'q' "Q:0" "Q" 4)
    ⟨by decide, by decide, by decide, by decide,
      show "A:0" ∈ docAB.characters.map (fun c => c.id) by decide,
      show "A:1" ∈ docAB.characters.map (fun c => c.id) by decide⟩
